import Mathlib

/-!
Shallow embedding of the `eden` ray tracer core (Rust) into Lean 4.

Machine floats (`f32`) are modelled as real numbers; `f32::INFINITY` interval
bounds are modelled with `EReal`.  Randomness (thread_rng draws) is passed as
explicit parameters: a raw component draw for `random_unit_vector` and a raw
uniform real for the dielectric reflectance choice.
-/

namespace Eden

noncomputable section

/-- Abstract 3-dim vector (src/base/vector.rs, `Vector<f32, 3>`). -/
structure Vector3 where
  x : ℝ
  y : ℝ
  z : ℝ

namespace Vector3

/-- Dot product with other vector (src/base/vector.rs `dot`). -/
def dot (v w : Vector3) : ℝ :=
  v.x * w.x + v.y * w.y + v.z * w.z

/-- Squared length of the vector (src/base/vector.rs `length_squared`). -/
def length_squared (v : Vector3) : ℝ :=
  v.dot v

/-- Length of the vector (src/base/vector.rs `length`). -/
def length (v : Vector3) : ℝ :=
  Real.sqrt v.length_squared

instance : Add Vector3 :=
  ⟨fun v w => ⟨v.x + w.x, v.y + w.y, v.z + w.z⟩⟩

instance : Sub Vector3 :=
  ⟨fun v w => ⟨v.x - w.x, v.y - w.y, v.z - w.z⟩⟩

instance : Neg Vector3 :=
  ⟨fun v => ⟨-v.x, -v.y, -v.z⟩⟩

/-- Vector * Scalar -> Vector (component broadcast, src/base/vector.rs). -/
instance : HMul Vector3 ℝ Vector3 :=
  ⟨fun v s => ⟨v.x * s, v.y * s, v.z * s⟩⟩

/-- Scalar * Vector -> Vector (component broadcast, src/base/vector.rs). -/
instance : HMul ℝ Vector3 Vector3 :=
  ⟨fun s v => ⟨s * v.x, s * v.y, s * v.z⟩⟩

/-- Vector / Scalar -> Vector (component broadcast, src/base/vector.rs). -/
instance : HDiv Vector3 ℝ Vector3 :=
  ⟨fun v s => ⟨v.x / s, v.y / s, v.z / s⟩⟩

/-- Normalizes the vector to unit length (src/base/vector.rs `normalize`). -/
def normalize (v : Vector3) : Vector3 :=
  v / v.length

/-- Reflects vector at the plane represented by the normal
(src/base/vector.rs `reflect`): `self - normal * 2 * self.dot(normal)`. -/
def reflect (v normal : Vector3) : Vector3 :=
  v - normal * (2 : ℝ) * v.dot normal

/-- Refracts (normalized) vector at the plane represented by the normal with
given refraction ratio; `none` on total internal reflection
(src/base/vector.rs `refract`). -/
def refract (v normal : Vector3) (etai_over_etat : ℝ) : Option Vector3 :=
  let cos_i := min (-(normal.dot v)) 1
  let sin2_i := 1 - cos_i * cos_i
  let sin2_t := etai_over_etat * etai_over_etat * sin2_i
  if 1 < sin2_t then
    none
  else
    let cos_t := Real.sqrt (1 - sin2_t)
    some (v * etai_over_etat + normal * (etai_over_etat * cos_i - cos_t))

/-- Machine epsilon of `f32`, the `near_zero` threshold: 2 ^ (-23). -/
def epsilon : ℝ :=
  1 / 2 ^ 23

/-- Whether vector is close to zero in all components
(src/base/vector.rs `near_zero`). -/
def near_zero (v : Vector3) : Prop :=
  |v.x| < epsilon ∧ |v.y| < epsilon ∧ |v.z| < epsilon

instance (v : Vector3) : Decidable v.near_zero := by
  unfold near_zero
  infer_instance

/-- Random vector of unit length (src/base/vector.rs `random_unit_vector`):
the raw componentwise draw is the explicit argument, then normalized. -/
def random_unit_vector (draw : Vector3) : Vector3 :=
  draw.normalize

end Vector3

/-- Abstract 3-dim point backed by a position vector (src/geometry/point.rs). -/
structure Point3 where
  position : Vector3

/-- Point + Vector -> Point (src/geometry/point.rs). -/
instance : HAdd Point3 Vector3 Point3 :=
  ⟨fun p v => ⟨p.position + v⟩⟩

/-- Point - Point -> Vector (src/geometry/point.rs). -/
instance : HSub Point3 Point3 Vector3 :=
  ⟨fun p q => p.position - q.position⟩

/-- Point - Vector -> Point (src/geometry/point.rs). -/
instance : HSub Point3 Vector3 Point3 :=
  ⟨fun p v => ⟨p.position - v⟩⟩

/-- Ray in 3-dim space defined by origin and direction (src/geometry/ray.rs). -/
structure Ray where
  origin : Point3
  direction : Vector3

namespace Ray

/-- Position on ray for parameter t (src/geometry/ray.rs `at`; Lean reserves
the name `at`): `origin + t * direction`. -/
def at_t (r : Ray) (t : ℝ) : Point3 :=
  r.origin + t * r.direction

end Ray

/-- Interval defined by start and end value (src/base/interval.rs); bounds are
extended reals so that `f32::INFINITY` bounds are representable. -/
structure Interval where
  start : EReal
  stop : EReal

namespace Interval

/-- Whether interval contains value, start exclusive and end exclusive
(src/base/interval.rs `contains`). -/
def contains (i : Interval) (t : ℝ) : Prop :=
  i.start < (t : EReal) ∧ (t : EReal) < i.stop

instance (i : Interval) (t : ℝ) : Decidable (i.contains t) := by
  unfold contains
  infer_instance

end Interval

/-- RGB color (src/base/color.rs, `Color<f32, 3>`). -/
structure Color where
  r : ℝ
  g : ℝ
  b : ℝ

namespace Color

/-- Black (src/base/color.rs `black`). -/
def black : Color :=
  ⟨0, 0, 0⟩

/-- White (src/base/color.rs `white`). -/
def white : Color :=
  ⟨1, 1, 1⟩

instance : Add Color :=
  ⟨fun c d => ⟨c.r + d.r, c.g + d.g, c.b + d.b⟩⟩

/-- Color * Color -> Color, component-wise (src/base/color.rs). -/
instance : Mul Color :=
  ⟨fun c d => ⟨c.r * d.r, c.g * d.g, c.b * d.b⟩⟩

/-- Scalar * Color -> Color (component broadcast, src/base/color.rs). -/
instance : HMul ℝ Color Color :=
  ⟨fun s c => ⟨s * c.r, s * c.g, s * c.b⟩⟩

end Color

/-- Lambertian material model (src/materials/lambert.rs; the identical struct
also appears in src/base/material.rs). -/
structure Lambert where
  albedo : Color

/-- A material defines how an object interacts with light rays
(src/base/material.rs, enum `Material`). -/
inductive Material where
  | Lambert (l : Eden.Lambert)
  | None

/-- Struct holding intersection properties (src/base/shape.rs). -/
structure Intersection where
  point : Point3
  normal : Vector3
  material : Material
  t : ℝ

/-- Struct holding interaction properties (src/base/material.rs). -/
structure Interaction where
  attenuation : Color
  scattered_ray : Ray

namespace Lambert

/-- Lambertian scattering (src/materials/lambert.rs `interact`); the raw
random componentwise draw behind `random_unit_vector` is explicit. -/
def interact (l : Lambert) (_incident_ray : Ray) (intersection : Intersection)
    (draw : Vector3) : Option Interaction :=
  let scattered0 := intersection.normal + Vector3.random_unit_vector draw
  let scattered := if scattered0.near_zero then intersection.normal else scattered0
  some ⟨l.albedo, ⟨intersection.point, scattered⟩⟩

end Lambert

namespace Material

/-- Material dispatch for scattering (src/base/material.rs `interact`). -/
def interact (m : Material) (incident_ray : Ray) (intersection : Intersection)
    (draw : Vector3) : Option Interaction :=
  match m with
  | Material.Lambert l => l.interact incident_ray intersection draw
  | Material.None => none

end Material

/-- Metal material model (src/materials/metal.rs). -/
structure Metal where
  albedo : Color
  fuzz : ℝ

namespace Metal

/-- Creates metal material with given albedo; fuzz clamped into [0, 1]
(src/materials/metal.rs `new`). -/
def new (albedo : Color) (fuzz : ℝ) : Metal :=
  ⟨albedo, max 0 (min fuzz 1)⟩

/-- Metal scattering (src/materials/metal.rs `interact`); the raw random
componentwise draw behind `random_unit_vector` is explicit. -/
def interact (m : Metal) (incident_ray : Ray) (intersection : Intersection)
    (draw : Vector3) : Option Interaction :=
  let reflected := incident_ray.direction.reflect intersection.normal
  let scattered0 := reflected.normalize + m.fuzz * Vector3.random_unit_vector draw
  let scattered := if scattered0.near_zero then reflected else scattered0
  if scattered.dot intersection.normal < 0 then
    none
  else
    some ⟨m.albedo, ⟨intersection.point, scattered⟩⟩

end Metal

/-- Dielectric material model (src/materials/dielectric.rs). -/
structure Dielectric where
  ior : ℝ

namespace Dielectric

/-- Schlick's approximation for reflectance (src/materials/dielectric.rs). -/
def schlick (_d : Dielectric) (incident normal : Vector3) (eta : ℝ) : ℝ :=
  let cos_i := min (-(incident.dot normal)) 1
  let r0 := ((1 - eta) / (1 + eta)) ^ 2
  r0 + (1 - r0) * (1 - cos_i) ^ 5

/-- Whether the ray hits from outside, by the sign of the direction-normal dot
product (src/materials/dielectric.rs `interact`, `front_face`). -/
def front_face (incident_ray : Ray) (intersection : Intersection) : Prop :=
  incident_ray.direction.dot intersection.normal ≤ 0

instance (incident_ray : Ray) (intersection : Intersection) :
    Decidable (front_face incident_ray intersection) := by
  unfold front_face
  infer_instance

/-- The side-corrected normal: the stored outward normal, flipped for
back-face hits (src/materials/dielectric.rs `interact`, `normal`). -/
def side_normal (incident_ray : Ray) (intersection : Intersection) : Vector3 :=
  if front_face incident_ray intersection then intersection.normal
  else -intersection.normal

/-- The refraction ratio: 1/ior when entering, ior when exiting
(src/materials/dielectric.rs `interact`, `etai_over_etat`). -/
def etai_over_etat (d : Dielectric) (incident_ray : Ray)
    (intersection : Intersection) : ℝ :=
  if front_face incident_ray intersection then 1 / d.ior else d.ior

/-- Dielectric scattering (src/materials/dielectric.rs `interact`); the
uniform reflectance draw `rng.gen()` is the explicit argument `u`. -/
def interact (d : Dielectric) (incident_ray : Ray) (intersection : Intersection)
    (u : ℝ) : Option Interaction :=
  let normal := side_normal incident_ray intersection
  let etai_over_etat := Dielectric.etai_over_etat d incident_ray intersection
  let incident := incident_ray.direction.normalize
  let scattered :=
    if u < d.schlick incident normal etai_over_etat then
      incident.reflect normal
    else
      match incident.refract normal etai_over_etat with
      | some refracted => refracted
      | none => incident.reflect normal
  some ⟨Color.white, ⟨intersection.point, scattered⟩⟩

end Dielectric

/-- Sphere in 3-dim space defined by center position and radius
(src/shapes/sphere.rs). -/
structure Sphere where
  center : Point3
  radius : ℝ
  material : Material

namespace Sphere

/-- Quadratic coefficient a = |ray.direction|^2 (src/shapes/sphere.rs). -/
def qa (_s : Sphere) (ray : Ray) : ℝ :=
  ray.direction.length_squared

/-- Quadratic coefficient half_b = ray.direction . oc (src/shapes/sphere.rs). -/
def half_b (s : Sphere) (ray : Ray) : ℝ :=
  ray.direction.dot (ray.origin - s.center)

/-- Quadratic coefficient c = |oc|^2 - radius^2 (src/shapes/sphere.rs). -/
def qc (s : Sphere) (ray : Ray) : ℝ :=
  (ray.origin - s.center).length_squared - s.radius * s.radius

/-- Discriminant half_b^2 - a * c of the ray-sphere quadratic
(src/shapes/sphere.rs). -/
def discriminant (s : Sphere) (ray : Ray) : ℝ :=
  s.half_b ray * s.half_b ray - s.qa ray * s.qc ray

/-- Smaller quadratic root (-half_b - sqrt disc) / a (src/shapes/sphere.rs). -/
def root1 (s : Sphere) (ray : Ray) : ℝ :=
  (-s.half_b ray - Real.sqrt (s.discriminant ray)) / s.qa ray

/-- Larger quadratic root (-half_b + sqrt disc) / a (src/shapes/sphere.rs). -/
def root2 (s : Sphere) (ray : Ray) : ℝ :=
  (-s.half_b ray + Real.sqrt (s.discriminant ray)) / s.qa ray

/-- The intersection record built for a surviving root: hit point, outward
normal `(point - center) / radius`, material, and t (src/shapes/sphere.rs). -/
def mkIntersection (s : Sphere) (ray : Ray) (root : ℝ) : Intersection :=
  let point := ray.at_t root
  ⟨point, (point - s.center) / s.radius, s.material, root⟩

/-- Ray-sphere intersection (src/shapes/sphere.rs `intersect`): negative
discriminant means no hit; otherwise the nearest root inside the interval
wins, trying the smaller root first. -/
def intersect (s : Sphere) (ray : Ray) (ray_t : Interval) : Option Intersection :=
  if s.discriminant ray < 0 then
    none
  else if ray_t.contains (s.root1 ray) then
    some (s.mkIntersection ray (s.root1 ray))
  else if ray_t.contains (s.root2 ray) then
    some (s.mkIntersection ray (s.root2 ray))
  else
    none

end Sphere

/-- An intersectable shape (src/base/shape.rs, enum `Shape`). -/
inductive Shape where
  | Sphere (s : Eden.Sphere)

namespace Shape

/-- Shape dispatch for intersection (src/base/shape.rs `intersect`). -/
def intersect (sh : Shape) (ray : Ray) (ray_t : Interval) : Option Intersection :=
  match sh with
  | Shape.Sphere s => s.intersect ray ray_t

end Shape

/-- A 3-dim scene holding shape objects (src/scene.rs). -/
structure Scene where
  objects : List Shape

/-- The linear scan of src/scene.rs `Scene::intersect`: the running best hit
and the shrinking upper bound `closest_t` are explicit accumulators. -/
def intersectList (objects : List Shape) (ray : Ray) (start : EReal)
    (best : Option Intersection) (closest : EReal) : Option Intersection :=
  match objects with
  | [] => best
  | o :: rest =>
    match o.intersect ray ⟨start, closest⟩ with
    | some i => intersectList rest ray start (some i) (i.t : EReal)
    | none => intersectList rest ray start best closest

namespace Scene

/-- Nearest-hit search over all objects (src/scene.rs `intersect`). -/
def intersect (sc : Scene) (ray : Ray) (ray_t : Interval) : Option Intersection :=
  intersectList sc.objects ray ray_t.start none ray_t.stop

end Scene

/-- Recursive radiance estimator (src/camera.rs `Camera::ray_color`); the
per-bounce random draws are an explicit stream, consumed one per bounce. -/
def ray_color (scene : Scene) (ray : Ray) (depth : ℕ) (draws : ℕ → Vector3) : Color :=
  match depth with
  | 0 => Color.black
  | d + 1 =>
    match scene.intersect ray ⟨((0.001 : ℝ) : EReal), ⊤⟩ with
    | some isect =>
      match isect.material.interact ray isect (draws 0) with
      | some iact =>
        iact.attenuation * ray_color scene iact.scattered_ray d (fun n => draws (n + 1))
      | none => Color.black
    | none =>
      let normalized_direction := ray.direction.normalize
      let a := 0.5 * (normalized_direction.y + 1)
      (1 - a) * Color.white + a * Color.mk 0.5 0.7 1

end

/-! ### Helper lemmas about the sphere intersection -/

/-- The quadratic coefficient a is a squared length, hence nonnegative. -/
theorem Sphere.qa_nonneg (s : Sphere) (ray : Ray) : 0 ≤ s.qa ray := by
  unfold Sphere.qa Vector3.length_squared Vector3.dot
  nlinarith [mul_self_nonneg ray.direction.x, mul_self_nonneg ray.direction.y,
    mul_self_nonneg ray.direction.z]

/-- The smaller root is at most the larger root. -/
theorem Sphere.root1_le_root2 (s : Sphere) (ray : Ray) :
    s.root1 ray ≤ s.root2 ray := by
  unfold Sphere.root1 Sphere.root2
  rcases eq_or_lt_of_le (s.qa_nonneg ray) with h | h
  · rw [← h, div_zero, div_zero]
  · rw [div_le_div_iff_of_pos_right h]
    have := Real.sqrt_nonneg (s.discriminant ray)
    linarith

/-- Characterization of a successful sphere intersection: the discriminant is
nonnegative and the result is built from the smaller root when it is inside
the interval, else from the larger root. -/
theorem Sphere.intersect_eq_some_cases {s : Sphere} {ray : Ray} {ray_t : Interval}
    {i : Intersection} (h : s.intersect ray ray_t = some i) :
    ¬ s.discriminant ray < 0 ∧
      ((ray_t.contains (s.root1 ray) ∧ i = s.mkIntersection ray (s.root1 ray)) ∨
        (¬ ray_t.contains (s.root1 ray) ∧ ray_t.contains (s.root2 ray) ∧
          i = s.mkIntersection ray (s.root2 ray))) := by
  unfold Sphere.intersect at h
  by_cases h1 : s.discriminant ray < 0
  · rw [if_pos h1] at h
    exact absurd h (by simp)
  rw [if_neg h1] at h
  by_cases h2 : ray_t.contains (s.root1 ray)
  · rw [if_pos h2] at h
    exact ⟨h1, Or.inl ⟨h2, (Option.some.inj h).symm⟩⟩
  rw [if_neg h2] at h
  by_cases h3 : ray_t.contains (s.root2 ray)
  · rw [if_pos h3] at h
    exact ⟨h1, Or.inr ⟨h2, h3, (Option.some.inj h).symm⟩⟩
  · rw [if_neg h3] at h
    exact absurd h (by simp)

/-- A successful sphere intersection has its parameter inside the interval. -/
theorem Sphere.intersect_some_contains {s : Sphere} {ray : Ray} {ray_t : Interval}
    {i : Intersection} (h : s.intersect ray ray_t = some i) :
    ray_t.contains i.t := by
  rcases (Sphere.intersect_eq_some_cases h).2 with ⟨hc, rfl⟩ | ⟨_, hc, rfl⟩ <;>
    exact hc

/-- A successful sphere intersection is the record built from its own root. -/
theorem Sphere.intersect_some_mk {s : Sphere} {ray : Ray} {ray_t : Interval}
    {i : Intersection} (h : s.intersect ray ray_t = some i) :
    i = s.mkIntersection ray i.t := by
  rcases (Sphere.intersect_eq_some_cases h).2 with ⟨_, rfl⟩ | ⟨_, _, rfl⟩ <;> rfl

/-- Shrinking the upper bound to a value below a missed search: if the sphere
misses the narrow interval but hits the wide one, the hit parameter is at
least the narrow upper bound. -/
theorem Sphere.none_then_some_le {s : Sphere} {ray : Ray} {lo c e : EReal}
    {j : Intersection} (hn : s.intersect ray ⟨lo, c⟩ = none)
    (hs : s.intersect ray ⟨lo, e⟩ = some j) : c ≤ (j.t : EReal) := by
  rcases Sphere.intersect_eq_some_cases hs with ⟨hd, hcase⟩
  unfold Sphere.intersect at hn
  rw [if_neg hd] at hn
  by_cases h1 : Interval.contains ⟨lo, c⟩ (s.root1 ray)
  · rw [if_pos h1] at hn
    exact absurd hn (by simp)
  rw [if_neg h1] at hn
  by_cases h2 : Interval.contains ⟨lo, c⟩ (s.root2 ray)
  · rw [if_pos h2] at hn
    exact absurd hn (by simp)
  rcases hcase with ⟨⟨hlo, _⟩, rfl⟩ | ⟨_, ⟨hlo, _⟩, rfl⟩
  · exact le_of_not_lt fun hlt => h1 ⟨hlo, hlt⟩
  · exact le_of_not_lt fun hlt => h2 ⟨hlo, hlt⟩

/-- Widening the upper bound preserves a hit found in the narrow interval:
the very same intersection record is returned. -/
theorem Sphere.some_extend {s : Sphere} {ray : Ray} {lo c e : EReal}
    {j : Intersection} (hce : c ≤ e) (hs : s.intersect ray ⟨lo, c⟩ = some j) :
    s.intersect ray ⟨lo, e⟩ = some j := by
  rcases Sphere.intersect_eq_some_cases hs with ⟨hd, hcase⟩
  rcases hcase with ⟨⟨hlo, hhi⟩, rfl⟩ | ⟨h1, ⟨hlo, hhi⟩, rfl⟩
  · unfold Sphere.intersect
    rw [if_neg hd, if_pos ⟨hlo, lt_of_lt_of_le hhi hce⟩]
  · have hr12 : ((s.root1 ray : ℝ) : EReal) ≤ ((s.root2 ray : ℝ) : EReal) := by
      exact_mod_cast s.root1_le_root2 ray
    have hn1 : ¬ Interval.contains ⟨lo, e⟩ (s.root1 ray) := by
      rintro ⟨hlo1, _⟩
      have hc1 : c ≤ ((s.root1 ray : ℝ) : EReal) :=
        le_of_not_lt fun hlt => h1 ⟨hlo1, hlt⟩
      exact absurd hhi (not_lt_of_le (le_trans hc1 hr12))
    unfold Sphere.intersect
    rw [if_neg hd, if_neg hn1, if_pos ⟨hlo, lt_of_lt_of_le hhi hce⟩]

/-! ### Shape-level lifts of the sphere lemmas -/

/-- A successful shape intersection has its parameter inside the interval. -/
theorem Shape.some_contains {sh : Shape} {ray : Ray} {ray_t : Interval}
    {i : Intersection} (h : sh.intersect ray ray_t = some i) :
    ray_t.contains i.t := by
  cases sh with
  | Sphere s => exact Sphere.intersect_some_contains h

/-- Shrinking lemma lifted to shapes. -/
theorem Shape.miss_then_some_le {sh : Shape} {ray : Ray} {lo c e : EReal}
    {j : Intersection} (hn : sh.intersect ray ⟨lo, c⟩ = none)
    (hs : sh.intersect ray ⟨lo, e⟩ = some j) : c ≤ (j.t : EReal) := by
  cases sh with
  | Sphere s => exact Sphere.none_then_some_le hn hs

/-- Widening lemma lifted to shapes. -/
theorem Shape.widen_some {sh : Shape} {ray : Ray} {lo c e : EReal}
    {j : Intersection} (hce : c ≤ e) (hs : sh.intersect ray ⟨lo, c⟩ = some j) :
    sh.intersect ray ⟨lo, e⟩ = some j := by
  cases sh with
  | Sphere s => exact Sphere.some_extend hce hs

/-! ### Invariants of the scene scan -/

/-- Unfolding the scan at a head shape that hits. -/
theorem intersectList_cons_some {o : Shape} {rest : List Shape} {ray : Ray}
    {lo : EReal} {best : Option Intersection} {c : EReal} {k : Intersection}
    (hint : o.intersect ray ⟨lo, c⟩ = some k) :
    intersectList (o :: rest) ray lo best c =
      intersectList rest ray lo (some k) (k.t : EReal) := by
  conv_lhs => rw [intersectList]
  rw [hint]

/-- Unfolding the scan at a head shape that misses. -/
theorem intersectList_cons_none {o : Shape} {rest : List Shape} {ray : Ray}
    {lo : EReal} {best : Option Intersection} {c : EReal}
    (hint : o.intersect ray ⟨lo, c⟩ = none) :
    intersectList (o :: rest) ray lo best c =
      intersectList rest ray lo best c := by
  conv_lhs => rw [intersectList]
  rw [hint]

/-- Once a best hit is held it is never dropped, only replaced. -/
theorem intersectList_some_of_best_some (objects : List Shape) (ray : Ray)
    (lo : EReal) (i : Intersection) (c : EReal) :
    ∃ j, intersectList objects ray lo (some i) c = some j := by
  induction objects generalizing i c with
  | nil => exact ⟨i, rfl⟩
  | cons o rest ih =>
    cases h : o.intersect ray ⟨lo, c⟩ with
    | some k =>
      rcases ih k (k.t : EReal) with ⟨j, hj⟩
      exact ⟨j, by rw [intersectList_cons_some h]; exact hj⟩
    | none =>
      rcases ih i c with ⟨j, hj⟩
      exact ⟨j, by rw [intersectList_cons_none h]; exact hj⟩

/-- A scan returning no hit started with no best hit and every scanned shape
missed the full current interval. -/
theorem intersectList_none (objects : List Shape) (ray : Ray) (lo : EReal)
    (best : Option Intersection) (c : EReal) :
    intersectList objects ray lo best c = none →
      best = none ∧ ∀ sh ∈ objects, sh.intersect ray ⟨lo, c⟩ = none := by
  induction objects generalizing best c with
  | nil => exact fun h => ⟨h, by simp⟩
  | cons o rest ih =>
    intro h
    cases hint : o.intersect ray ⟨lo, c⟩ with
    | some k =>
      rw [intersectList_cons_some hint] at h
      rcases intersectList_some_of_best_some rest ray lo k (k.t : EReal) with ⟨j, hj⟩
      rw [h] at hj
      exact absurd hj (by simp)
    | none =>
      rw [intersectList_cons_none hint] at h
      rcases ih best c h with ⟨hb, hall⟩
      refine ⟨hb, ?_⟩
      intro sh hsh
      rcases List.mem_cons.mp hsh with rfl | hmem
      · exact hint
      · exact hall sh hmem

/-- The scan result either is the incoming best hit or lies strictly below the
incoming upper bound. -/
theorem intersectList_progress (objects : List Shape) (ray : Ray) (lo : EReal)
    (best : Option Intersection) (c : EReal) (hit : Intersection) :
    intersectList objects ray lo best c = some hit →
      best = some hit ∨ (hit.t : EReal) < c := by
  induction objects generalizing best c with
  | nil => exact fun h => Or.inl h
  | cons o rest ih =>
    intro h
    cases hint : o.intersect ray ⟨lo, c⟩ with
    | some k =>
      rw [intersectList_cons_some hint] at h
      have hk := Shape.some_contains hint
      rcases ih (some k) (k.t : EReal) h with hbk | hlt
      · have hke : k = hit := Option.some.inj hbk
        exact Or.inr (hke ▸ hk.2)
      · exact Or.inr (lt_trans hlt hk.2)
    | none =>
      rw [intersectList_cons_none hint] at h
      exact ih best c h

/-- Bounds on the final hit: assuming the state invariant, the returned hit
parameter lies strictly between the search bounds. -/
theorem intersectList_bounds (objects : List Shape) (ray : Ray) (lo : EReal)
    (best : Option Intersection) (c bigE : EReal) (hit : Intersection) :
    c ≤ bigE →
      (∀ i, best = some i → (i.t : EReal) = c ∧ lo < (i.t : EReal) ∧ c < bigE) →
      intersectList objects ray lo best c = some hit →
      lo < (hit.t : EReal) ∧ (hit.t : EReal) < bigE := by
  induction objects generalizing best c with
  | nil =>
    intro _ hbest h
    rcases hbest hit h with ⟨heq, hlo, hhi⟩
    exact ⟨hlo, heq ▸ hhi⟩
  | cons o rest ih =>
    intro hcE hbest h
    cases hint : o.intersect ray ⟨lo, c⟩ with
    | some k =>
      rw [intersectList_cons_some hint] at h
      have hk := Shape.some_contains hint
      refine ih (some k) (k.t : EReal) (le_trans (le_of_lt hk.2) hcE) ?_ h
      intro i hi
      have hki : k = i := Option.some.inj hi
      subst hki
      exact ⟨rfl, hk.1, lt_of_lt_of_le hk.2 hcE⟩
    | none =>
      rw [intersectList_cons_none hint] at h
      exact ih best c hcE hbest h

/-- Global minimality: assuming the state invariant, no scanned shape hits the
original interval strictly closer than the returned hit. -/
theorem intersectList_minimal (objects : List Shape) (ray : Ray) (lo : EReal)
    (best : Option Intersection) (c bigE : EReal) (hit : Intersection) :
    c ≤ bigE → (∀ i, best = some i → (i.t : EReal) = c) →
      intersectList objects ray lo best c = some hit →
      ∀ sh ∈ objects, ∀ j, sh.intersect ray ⟨lo, bigE⟩ = some j →
        (hit.t : EReal) ≤ (j.t : EReal) := by
  induction objects generalizing best c with
  | nil => simp
  | cons o rest ih =>
    intro hcE hbest h sh hsh j hj
    cases hint : o.intersect ray ⟨lo, c⟩ with
    | some k =>
      rw [intersectList_cons_some hint] at h
      have hk := Shape.some_contains hint
      rcases List.mem_cons.mp hsh with rfl | hmem
      · have hkE : sh.intersect ray ⟨lo, bigE⟩ = some k :=
          Shape.widen_some hcE hint
        have hjk : k = j := Option.some.inj (hkE.symm.trans hj)
        subst hjk
        rcases intersectList_progress rest ray lo (some k) (k.t : EReal) hit h with
          hbk | hlt
        · rw [Option.some.inj hbk]
        · exact le_of_lt hlt
      · exact ih (some k) (k.t : EReal) (le_trans (le_of_lt hk.2) hcE)
          (fun i hi => by rw [Option.some.inj hi]) h sh hmem j hj
    | none =>
      rw [intersectList_cons_none hint] at h
      rcases List.mem_cons.mp hsh with rfl | hmem
      · have hcj : c ≤ (j.t : EReal) := Shape.miss_then_some_le hint hj
        have hhc : (hit.t : EReal) ≤ c := by
          rcases intersectList_progress rest ray lo best c hit h with hb | hlt
          · exact le_of_eq (hbest hit hb)
          · exact le_of_lt hlt
        exact le_trans hhc hcj
      · exact ih best c hcE hbest h sh hmem j hj

/-! ### Componentwise unfolding lemmas for the algebra -/

theorem Vector3.add_def (v w : Vector3) :
    v + w = ⟨v.x + w.x, v.y + w.y, v.z + w.z⟩ := rfl

theorem Vector3.sub_def (v w : Vector3) :
    v - w = ⟨v.x - w.x, v.y - w.y, v.z - w.z⟩ := rfl

theorem Vector3.neg_def (v : Vector3) : -v = ⟨-v.x, -v.y, -v.z⟩ := rfl

theorem Vector3.mul_real_def (v : Vector3) (s : ℝ) :
    v * s = ⟨v.x * s, v.y * s, v.z * s⟩ := rfl

theorem Vector3.real_mul_def (s : ℝ) (v : Vector3) :
    s * v = ⟨s * v.x, s * v.y, s * v.z⟩ := rfl

theorem Vector3.div_real_def (v : Vector3) (s : ℝ) :
    v / s = ⟨v.x / s, v.y / s, v.z / s⟩ := rfl

theorem Point3.sub_point_def (p q : Point3) : p - q = p.position - q.position := rfl

theorem Point3.add_vec_def (p : Point3) (v : Vector3) : p + v = ⟨p.position + v⟩ := rfl

theorem Point3.sub_vec_def (p : Point3) (v : Vector3) : p - v = ⟨p.position - v⟩ := rfl

theorem Color.add_color_def (c d : Color) : c + d = ⟨c.r + d.r, c.g + d.g, c.b + d.b⟩ := rfl

theorem Color.mul_def (c d : Color) : c * d = ⟨c.r * d.r, c.g * d.g, c.b * d.b⟩ := rfl

theorem Color.scalar_mul_def (s : ℝ) (c : Color) : s * c = ⟨s * c.r, s * c.g, s * c.b⟩ := rfl

/-- A concrete unit sphere at the origin, used to instantiate hypotheses of
the claim theorems at explicit inputs. -/
def sphereEx : Sphere :=
  ⟨⟨⟨0, 0, 0⟩⟩, 1, Material.None⟩

/-- A concrete ray aimed at `sphereEx` from z = -2. -/
def rayEx : Ray :=
  ⟨⟨⟨0, 0, -2⟩⟩, ⟨0, 0, 1⟩⟩

/-- A concrete finite search interval (0, 10). -/
def intervalEx : Interval :=
  ⟨((0 : ℝ) : EReal), ((10 : ℝ) : EReal)⟩

theorem sphereEx_qa : sphereEx.qa rayEx = 1 := by
  simp [sphereEx, rayEx, Sphere.qa, Vector3.length_squared, Vector3.dot]

theorem sphereEx_half_b : sphereEx.half_b rayEx = -2 := by
  simp [sphereEx, rayEx, Sphere.half_b, Vector3.dot, Point3.sub_point_def,
    Vector3.sub_def]

theorem sphereEx_discriminant : sphereEx.discriminant rayEx = 1 := by
  rw [Sphere.discriminant, sphereEx_qa, sphereEx_half_b]
  have hqc : sphereEx.qc rayEx = 3 := by
    simp [sphereEx, rayEx, Sphere.qc, Vector3.length_squared, Vector3.dot,
      Point3.sub_point_def, Vector3.sub_def]
    norm_num
  rw [hqc]
  norm_num

theorem sphereEx_root1 : sphereEx.root1 rayEx = 1 := by
  rw [Sphere.root1, sphereEx_qa, sphereEx_half_b, sphereEx_discriminant,
    Real.sqrt_one]
  norm_num

/-- Concrete evaluation of the sphere intersection at the example inputs. -/
theorem sphereEx_eval :
    sphereEx.intersect rayEx intervalEx = some (sphereEx.mkIntersection rayEx 1) := by
  have hc : intervalEx.contains (sphereEx.root1 rayEx) := by
    rw [sphereEx_root1]
    exact ⟨EReal.coe_lt_coe_iff.mpr (by norm_num),
      EReal.coe_lt_coe_iff.mpr (by norm_num)⟩
  rw [Sphere.intersect, if_neg (by rw [sphereEx_discriminant]; norm_num),
    if_pos hc, sphereEx_root1]

/-- C5: For a scene containing exactly one shape, Scene.intersect returns
exactly the same optional intersection as that single shape's own intersect,
for every ray and every interval. -/
theorem scene_single_shape_refinement (sh : Shape) (ray : Ray) (ray_t : Interval) :
    Scene.intersect ⟨[sh]⟩ ray ray_t = sh.intersect ray ray_t := by
  rw [Scene.intersect]
  cases h : sh.intersect ray ray_t with
  | some i =>
    rw [intersectList_cons_some h]
    rfl
  | none =>
    rw [intersectList_cons_none h]
    rfl

/-- C7: Every intersection returned by Sphere.intersect carries the normal
(point - center) / radius, the outward geometric normal, regardless of the
side the ray strikes from; it is never flipped for back-face hits. -/
theorem sphere_outward_normal (s : Sphere) (ray : Ray) (ray_t : Interval)
    (i : Intersection) (h : s.intersect ray ray_t = some i) :
    i.normal = (i.point - s.center) / s.radius := by
  rw [Sphere.intersect_some_mk h]
  rfl

/-- Witness for C7 at the concrete example intersection. -/
theorem sphere_outward_normal_witness :
    (sphereEx.mkIntersection rayEx 1).normal =
      ((sphereEx.mkIntersection rayEx 1).point - sphereEx.center) / sphereEx.radius :=
  sphere_outward_normal sphereEx rayEx intervalEx _ sphereEx_eval

/-- C10: Whenever Sphere.intersect returns an intersection, its parameter t is
strictly inside the queried interval, its point equals ray.at(t), and its
material is the sphere's own material. -/
theorem sphere_intersect_contract (s : Sphere) (ray : Ray) (ray_t : Interval)
    (i : Intersection) (h : s.intersect ray ray_t = some i) :
    ray_t.contains i.t ∧ i.point = ray.at_t i.t ∧ i.material = s.material := by
  refine ⟨Sphere.intersect_some_contains h, ?_, ?_⟩
  · rw [Sphere.intersect_some_mk h]
    rfl
  · rw [Sphere.intersect_some_mk h]
    rfl

/-- Witness for C10 at the concrete example intersection. -/
theorem sphere_intersect_contract_witness :
    intervalEx.contains (sphereEx.mkIntersection rayEx 1).t ∧
      (sphereEx.mkIntersection rayEx 1).point =
        rayEx.at_t (sphereEx.mkIntersection rayEx 1).t ∧
      (sphereEx.mkIntersection rayEx 1).material = sphereEx.material :=
  sphere_intersect_contract sphereEx rayEx intervalEx _ sphereEx_eval

/-- Multiplying by scalar one and adding a zero-scaled vector is the
identity. -/
theorem Vector3.mul_one_add_mul_zero (v n : Vector3) :
    v * (1 : ℝ) + n * (0 : ℝ) = v := by
  obtain ⟨a, b, c⟩ := v
  obtain ⟨d, e, f⟩ := n
  simp [Vector3.mul_real_def, Vector3.add_def]

/-- C6: refract returns the absent signal iff the squared transmitted sine
exceeds one, and for ratio one the refraction is the identity, under the
claim's hypotheses (unit vectors, normal pointing against the incident). -/
theorem refract_spec (v n : Vector3) (eta : ℝ)
    (hv : v.length_squared = 1) (hn : n.length_squared = 1)
    (hvn : n.dot v ≤ 0) :
    (Vector3.refract v n eta = none ↔
        1 < eta ^ 2 * (1 - min (-(n.dot v)) 1 ^ 2)) ∧
      Vector3.refract v n 1 = some v := by
  constructor
  · simp only [Vector3.refract]
    split_ifs with hc
    · simpa using (show 1 < eta ^ 2 * (1 - min (-(n.dot v)) 1 ^ 2) by nlinarith [hc])
    · simp only [reduceCtorEq, false_iff, not_lt]
      nlinarith [not_lt.mp hc]
  · have hcos0 : 0 ≤ min (-(n.dot v)) 1 := le_min (by linarith) (by norm_num)
    simp only [Vector3.refract]
    rw [if_neg (by nlinarith [mul_self_nonneg (min (-(n.dot v)) 1)])]
    have hsq : 1 - 1 * 1 * (1 - min (-(n.dot v)) 1 * min (-(n.dot v)) 1) =
        min (-(n.dot v)) 1 * min (-(n.dot v)) 1 := by ring
    rw [hsq, Real.sqrt_mul_self hcos0,
      show (1 : ℝ) * min (-(n.dot v)) 1 - min (-(n.dot v)) 1 = 0 by ring,
      Vector3.mul_one_add_mul_zero]

/-- A concrete downward unit vector. -/
def vEx : Vector3 :=
  ⟨0, 0, -1⟩

/-- A concrete upward unit normal, pointing against `vEx`. -/
def nEx : Vector3 :=
  ⟨0, 0, 1⟩

/-- Witness for C6 at the concrete pair, with ratio 2 for the criterion and
ratio 1 for the identity. -/
theorem refract_spec_witness :
    (Vector3.refract vEx nEx 2 = none ↔
        1 < (2 : ℝ) ^ 2 * (1 - min (-(nEx.dot vEx)) 1 ^ 2)) ∧
      Vector3.refract vEx nEx 1 = some vEx :=
  refract_spec vEx nEx 2
    (by simp [vEx, Vector3.length_squared, Vector3.dot])
    (by simp [nEx, Vector3.length_squared, Vector3.dot])
    (by simp [vEx, nEx, Vector3.dot])

/-- C4: the dielectric never absorbs, its attenuation is always white, and the
scattered direction is either the analytic reflection about the
side-corrected normal or the analytic Snell refraction with the
side-corrected ratio, for every value of the reflectance draw. -/
theorem dielectric_reflect_or_refract (d : Dielectric) (ray : Ray)
    (isect : Intersection) (u : ℝ) :
    ∃ iact, d.interact ray isect u = some iact ∧
      iact.attenuation = Color.white ∧
      (iact.scattered_ray.direction =
          (ray.direction.normalize).reflect (Dielectric.side_normal ray isect) ∨
        Vector3.refract (ray.direction.normalize)
            (Dielectric.side_normal ray isect) (d.etai_over_etat ray isect) =
          some iact.scattered_ray.direction) := by
  by_cases hs : u < d.schlick ray.direction.normalize
      (Dielectric.side_normal ray isect) (d.etai_over_etat ray isect)
  · refine ⟨⟨Color.white, ⟨isect.point,
      (ray.direction.normalize).reflect (Dielectric.side_normal ray isect)⟩⟩,
      ?_, rfl, Or.inl rfl⟩
    simp only [Dielectric.interact]
    rw [if_pos hs]
  · cases hr : Vector3.refract ray.direction.normalize
        (Dielectric.side_normal ray isect) (d.etai_over_etat ray isect) with
    | some refracted =>
      refine ⟨⟨Color.white, ⟨isect.point, refracted⟩⟩, ?_, rfl, Or.inr rfl⟩
      simp only [Dielectric.interact]
      rw [if_neg hs, hr]
    | none =>
      refine ⟨⟨Color.white, ⟨isect.point,
        (ray.direction.normalize).reflect (Dielectric.side_normal ray isect)⟩⟩,
        ?_, rfl, Or.inl rfl⟩
      simp only [Dielectric.interact]
      rw [if_neg hs, hr]

/-! ### Vector norm helper lemmas for the material models -/

theorem Vector3.dot_self_nonneg (v : Vector3) : 0 ≤ v.dot v := by
  unfold Vector3.dot
  nlinarith [mul_self_nonneg v.x, mul_self_nonneg v.y, mul_self_nonneg v.z]

theorem Vector3.eq_zero_of_length_squared_eq_zero {v : Vector3}
    (h : v.length_squared = 0) : v = ⟨0, 0, 0⟩ := by
  obtain ⟨a, b, c⟩ := v
  simp only [Vector3.length_squared, Vector3.dot] at h
  have ha : a = 0 := by nlinarith [mul_self_nonneg a, mul_self_nonneg b, mul_self_nonneg c]
  have hb : b = 0 := by nlinarith [mul_self_nonneg a, mul_self_nonneg b, mul_self_nonneg c]
  have hc : c = 0 := by nlinarith [mul_self_nonneg a, mul_self_nonneg b, mul_self_nonneg c]
  simp [ha, hb, hc]

theorem Vector3.normalize_zero : (⟨0, 0, 0⟩ : Vector3).normalize = ⟨0, 0, 0⟩ := by
  unfold Vector3.normalize
  rw [Vector3.div_real_def]
  simp

/-- Normalizing a vector of nonzero squared length yields a unit vector. -/
theorem Vector3.normalize_unit {v : Vector3} (h : v.length_squared ≠ 0) :
    v.normalize.length_squared = 1 := by
  have hpos : 0 < v.length_squared := lt_of_le_of_ne (Vector3.dot_self_nonneg v) (Ne.symm h)
  have hsne : Real.sqrt v.length_squared ≠ 0 :=
    ne_of_gt (Real.sqrt_pos.mpr hpos)
  have hss : Real.sqrt v.length_squared * Real.sqrt v.length_squared =
      v.length_squared := Real.mul_self_sqrt hpos.le
  unfold Vector3.normalize Vector3.length
  rw [Vector3.div_real_def]
  show (v.x / Real.sqrt v.length_squared) * (v.x / Real.sqrt v.length_squared) +
      (v.y / Real.sqrt v.length_squared) * (v.y / Real.sqrt v.length_squared) +
      (v.z / Real.sqrt v.length_squared) * (v.z / Real.sqrt v.length_squared) = 1
  rw [div_mul_div_comm, div_mul_div_comm, div_mul_div_comm, div_add_div_same,
    div_add_div_same, hss]
  have hnum : v.x * v.x + v.y * v.y + v.z * v.z = v.length_squared := rfl
  rw [hnum]
  exact div_self h

/-- A unit vector is not near zero: some component is at least 1/sqrt 3,
far above the f32 machine epsilon. -/
theorem Vector3.not_near_zero_of_unit {v : Vector3} (h : v.length_squared = 1) :
    ¬ v.near_zero := by
  rintro ⟨hx, hy, hz⟩
  simp only [Vector3.length_squared, Vector3.dot] at h
  have h2x : v.x * v.x < Vector3.epsilon * Vector3.epsilon := by
    nlinarith [abs_mul_abs_self v.x, abs_nonneg v.x]
  have h2y : v.y * v.y < Vector3.epsilon * Vector3.epsilon := by
    nlinarith [abs_mul_abs_self v.y, abs_nonneg v.y]
  have h2z : v.z * v.z < Vector3.epsilon * Vector3.epsilon := by
    nlinarith [abs_mul_abs_self v.z, abs_nonneg v.z]
  have heps : Vector3.epsilon * Vector3.epsilon < 1 / 3 := by
    unfold Vector3.epsilon
    norm_num
  linarith

/-- The squared length of any normalized vector is at most one (it is one,
except for the zero vector where it is zero). -/
theorem Vector3.normalize_length_squared_le_one (v : Vector3) :
    v.normalize.length_squared ≤ 1 := by
  by_cases h : v.length_squared = 0
  · rw [Vector3.eq_zero_of_length_squared_eq_zero h, Vector3.normalize_zero]
    show (0 : ℝ) * 0 + 0 * 0 + 0 * 0 ≤ 1
    norm_num
  · rw [Vector3.normalize_unit h]

theorem Vector3.add_dot (a b c : Vector3) :
    (a + b).dot c = a.dot c + b.dot c := by
  simp only [Vector3.add_def, Vector3.dot]
  ring

/-- Dot product of two vectors of squared length at most one is at least -1. -/
theorem Vector3.dot_ge_neg_one {u n : Vector3} (hu : u.length_squared ≤ 1)
    (hn : n.length_squared ≤ 1) : -1 ≤ u.dot n := by
  have h0 : 0 ≤ (u + n).dot (u + n) := Vector3.dot_self_nonneg _
  have hexp : (u + n).dot (u + n) = u.dot u + 2 * u.dot n + n.dot n := by
    simp only [Vector3.add_def, Vector3.dot]
    ring
  have hu' : u.dot u ≤ 1 := hu
  have hn' : n.dot n ≤ 1 := hn
  linarith [hexp ▸ h0]

/-! ### Metal with fuzz zero -/

/-- Clamping a zero fuzz leaves zero. -/
theorem Metal.new_fuzz_zero (albedo : Color) : (Metal.new albedo 0).fuzz = 0 := by
  unfold Metal.new
  simp

theorem Vector3.add_zero_mul (w u : Vector3) : w + (0 : ℝ) * u = w := by
  obtain ⟨a, b, c⟩ := w
  obtain ⟨d, e, f⟩ := u
  simp [Vector3.real_mul_def, Vector3.add_def]

/-- With fuzz zero the metal interaction is fully determined by the incident
direction and the normal: the random perturbation vanishes. -/
theorem Metal.interact_fuzz0 (albedo : Color) (ray : Ray) (isect : Intersection)
    (draw : Vector3) :
    (Metal.new albedo 0).interact ray isect draw =
      if (ray.direction.reflect isect.normal).normalize.dot isect.normal < 0 then
        none
      else
        some ⟨albedo, ⟨isect.point, (ray.direction.reflect isect.normal).normalize⟩⟩ := by
  have hsc : (ray.direction.reflect isect.normal).normalize +
      (Metal.new albedo 0).fuzz * Vector3.random_unit_vector draw =
      (ray.direction.reflect isect.normal).normalize := by
    rw [Metal.new_fuzz_zero]
    exact Vector3.add_zero_mul _ _
  simp only [Metal.interact]
  rw [hsc]
  by_cases hz : (ray.direction.reflect isect.normal).normalize.near_zero
  · rw [if_pos hz]
    have hrefl0 : ray.direction.reflect isect.normal = ⟨0, 0, 0⟩ := by
      by_contra hne
      have hls : (ray.direction.reflect isect.normal).length_squared ≠ 0 :=
        fun h0 => hne (Vector3.eq_zero_of_length_squared_eq_zero h0)
      exact Vector3.not_near_zero_of_unit (Vector3.normalize_unit hls) hz
    rw [hrefl0, Vector3.normalize_zero]
    rfl
  · rw [if_neg hz]
    rfl

/-- C8: Metal constructed with fuzz 0 interacts deterministically: the output
is independent of the random draw, and any present interaction scatters to
exactly normalize(reflect(incident, normal)) with attenuation the albedo. -/
theorem metal_fuzz0_deterministic (albedo : Color) (ray : Ray)
    (isect : Intersection) (draw1 draw2 : Vector3) :
    (Metal.new albedo 0).interact ray isect draw1 =
        (Metal.new albedo 0).interact ray isect draw2 ∧
      ∀ iact, (Metal.new albedo 0).interact ray isect draw1 = some iact →
        iact.scattered_ray.direction =
            (ray.direction.reflect isect.normal).normalize ∧
          iact.attenuation = albedo := by
  constructor
  · rw [Metal.interact_fuzz0, Metal.interact_fuzz0]
  · intro iact h
    rw [Metal.interact_fuzz0] at h
    by_cases hlt : (ray.direction.reflect isect.normal).normalize.dot isect.normal < 0
    · rw [if_pos hlt] at h
      exact absurd h (by simp)
    · rw [if_neg hlt] at h
      rw [← Option.some.inj h]
      exact ⟨rfl, rfl⟩

/-- A concrete ray going straight down, for the material witnesses. -/
def rayM : Ray :=
  ⟨⟨⟨0, 0, 0⟩⟩, ⟨0, -1, 0⟩⟩

/-- A concrete intersection with upward unit normal, for the material
witnesses. -/
def isectM : Intersection :=
  ⟨⟨⟨1, 1, 1⟩⟩, ⟨0, 1, 0⟩, Material.None, 1⟩

theorem rayM_reflect : rayM.direction.reflect isectM.normal = ⟨0, 1, 0⟩ := by
  simp only [rayM, isectM, Vector3.reflect, Vector3.dot, Vector3.mul_real_def,
    Vector3.sub_def]
  norm_num

theorem upward_normalize : (⟨0, 1, 0⟩ : Vector3).normalize = ⟨0, 1, 0⟩ := by
  unfold Vector3.normalize Vector3.length Vector3.length_squared Vector3.dot
  rw [Vector3.div_real_def]
  norm_num

/-- Concrete evaluation of the fuzz-0 metal interaction. -/
theorem metalEx_eval :
    (Metal.new ⟨1, 1, 0⟩ 0).interact rayM isectM ⟨5, 6, 7⟩ =
      some ⟨⟨1, 1, 0⟩, ⟨isectM.point, ⟨0, 1, 0⟩⟩⟩ := by
  rw [Metal.interact_fuzz0, rayM_reflect, upward_normalize]
  rw [if_neg (by simp [isectM, Vector3.dot])]

/-- Witness for C8 at the concrete metal example. -/
theorem metal_fuzz0_deterministic_witness :
    (Metal.new ⟨1, 1, 0⟩ 0).interact rayM isectM ⟨5, 6, 7⟩ =
        (Metal.new ⟨1, 1, 0⟩ 0).interact rayM isectM ⟨0, 0, 0⟩ ∧
      ((⟨⟨1, 1, 0⟩, ⟨isectM.point, ⟨0, 1, 0⟩⟩⟩ : Interaction).scattered_ray.direction =
          (rayM.direction.reflect isectM.normal).normalize ∧
        (⟨⟨1, 1, 0⟩, ⟨isectM.point, ⟨0, 1, 0⟩⟩⟩ : Interaction).attenuation = ⟨1, 1, 0⟩) :=
  ⟨(metal_fuzz0_deterministic ⟨1, 1, 0⟩ rayM isectM ⟨5, 6, 7⟩ ⟨0, 0, 0⟩).1,
    (metal_fuzz0_deterministic ⟨1, 1, 0⟩ rayM isectM ⟨5, 6, 7⟩ ⟨0, 0, 0⟩).2 _ metalEx_eval⟩

/-! ### Lambert -/

/-- C9: Lambert never absorbs, attenuates by the albedo, never scatters
strictly into the surface (up to the f32 epsilon), and the degenerate
near-zero fallback scatters along the bare normal. -/
theorem lambert_never_absorbs (l : Lambert) (ray : Ray) (isect : Intersection)
    (draw : Vector3) (hn : isect.normal.length_squared = 1) :
    ∃ iact, l.interact ray isect draw = some iact ∧
      iact.attenuation = l.albedo ∧
      -Vector3.epsilon ≤ iact.scattered_ray.direction.dot isect.normal ∧
      ((isect.normal + Vector3.random_unit_vector draw).near_zero →
        iact.scattered_ray.direction = isect.normal) := by
  have heps : (0 : ℝ) < Vector3.epsilon := by
    unfold Vector3.epsilon
    norm_num
  simp only [Lambert.interact]
  by_cases hz : (isect.normal + Vector3.random_unit_vector draw).near_zero
  · rw [if_pos hz]
    refine ⟨_, rfl, rfl, ?_, fun _ => rfl⟩
    show -Vector3.epsilon ≤ isect.normal.dot isect.normal
    have hnn : isect.normal.dot isect.normal = 1 := hn
    rw [hnn]
    linarith
  · rw [if_neg hz]
    refine ⟨_, rfl, rfl, ?_, fun hzz => absurd hzz hz⟩
    show -Vector3.epsilon ≤
      (isect.normal + Vector3.random_unit_vector draw).dot isect.normal
    have hu : (Vector3.random_unit_vector draw).length_squared ≤ 1 :=
      Vector3.normalize_length_squared_le_one draw
    have hge : -1 ≤ (Vector3.random_unit_vector draw).dot isect.normal :=
      Vector3.dot_ge_neg_one hu (le_of_eq hn)
    rw [Vector3.add_dot]
    have hnn : isect.normal.dot isect.normal = 1 := hn
    rw [hnn]
    linarith

/-- Witness for C9 at a concrete Lambert interaction. -/
theorem lambert_never_absorbs_witness :
    ∃ iact, Lambert.interact ⟨⟨0.5, 0.5, 0.5⟩⟩ rayM isectM ⟨0, 0, 0⟩ = some iact ∧
      iact.attenuation = (⟨0.5, 0.5, 0.5⟩ : Color) ∧
      -Vector3.epsilon ≤ iact.scattered_ray.direction.dot isectM.normal ∧
      ((isectM.normal + Vector3.random_unit_vector ⟨0, 0, 0⟩).near_zero →
        iact.scattered_ray.direction = isectM.normal) :=
  lambert_never_absorbs ⟨⟨0.5, 0.5, 0.5⟩⟩ rayM isectM ⟨0, 0, 0⟩
    (by simp [isectM, Vector3.length_squared, Vector3.dot])

/-! ### C1: quadratic root selection of the sphere intersection -/

/-- C1: the sphere intersection returns absent on negative discriminant; a ray
through the center with unit direction from distance d hits at t = d - radius,
or at t = d + radius when the smaller root is rejected by the interval; and
when both roots are rejected the result is absent even though the geometry
intersects. -/
theorem sphere_intersect_root_selection :
    (∀ (s : Sphere) (ray : Ray) (ray_t : Interval),
        s.discriminant ray < 0 → s.intersect ray ray_t = none) ∧
      (∀ (s : Sphere) (u : Vector3) (d : ℝ) (ray_t : Interval),
        u.length_squared = 1 → 0 ≤ d → 0 ≤ s.radius →
          ((ray_t.contains (d - s.radius) →
              ∃ i, s.intersect ⟨s.center - d * u, u⟩ ray_t = some i ∧
                i.t = d - s.radius) ∧
            (¬ ray_t.contains (d - s.radius) → ray_t.contains (d + s.radius) →
              ∃ i, s.intersect ⟨s.center - d * u, u⟩ ray_t = some i ∧
                i.t = d + s.radius))) ∧
      (∀ (s : Sphere) (ray : Ray) (ray_t : Interval),
        0 ≤ s.discriminant ray → ¬ ray_t.contains (s.root1 ray) →
          ¬ ray_t.contains (s.root2 ray) → s.intersect ray ray_t = none) := by
  refine ⟨?_, ?_, ?_⟩
  · intro s ray ray_t h
    rw [Sphere.intersect, if_pos h]
  · intro s u d ray_t hu hd0 hr
    have hu' : u.x * u.x + u.y * u.y + u.z * u.z = 1 := hu
    have hqa : s.qa ⟨s.center - d * u, u⟩ = 1 := hu
    have hhb : s.half_b ⟨s.center - d * u, u⟩ = -d := by
      unfold Sphere.half_b
      simp only [Point3.sub_vec_def, Point3.sub_point_def, Vector3.real_mul_def,
        Vector3.sub_def, Vector3.dot]
      linear_combination (-d) * hu'
    have hqc : s.qc ⟨s.center - d * u, u⟩ = d * d - s.radius * s.radius := by
      unfold Sphere.qc Vector3.length_squared
      simp only [Point3.sub_vec_def, Point3.sub_point_def, Vector3.real_mul_def,
        Vector3.sub_def, Vector3.dot]
      linear_combination (d * d) * hu'
    have hdisc : s.discriminant ⟨s.center - d * u, u⟩ = s.radius * s.radius := by
      rw [Sphere.discriminant, hqa, hhb, hqc]
      ring
    have hroot1 : s.root1 ⟨s.center - d * u, u⟩ = d - s.radius := by
      rw [Sphere.root1, hqa, hhb, hdisc, Real.sqrt_mul_self hr, div_one]
      ring
    have hroot2 : s.root2 ⟨s.center - d * u, u⟩ = d + s.radius := by
      rw [Sphere.root2, hqa, hhb, hdisc, Real.sqrt_mul_self hr, div_one]
      ring
    have hdn : ¬ s.discriminant ⟨s.center - d * u, u⟩ < 0 := by
      rw [hdisc]
      exact not_lt.mpr (mul_self_nonneg _)
    constructor
    · intro hc
      refine ⟨s.mkIntersection ⟨s.center - d * u, u⟩
          (s.root1 ⟨s.center - d * u, u⟩), ?_, ?_⟩
      · rw [Sphere.intersect, if_neg hdn, if_pos (by rw [hroot1]; exact hc)]
      · exact hroot1
    · intro hc1 hc2
      refine ⟨s.mkIntersection ⟨s.center - d * u, u⟩
          (s.root2 ⟨s.center - d * u, u⟩), ?_, ?_⟩
      · rw [Sphere.intersect, if_neg hdn, if_neg (by rw [hroot1]; exact hc1),
          if_pos (by rw [hroot2]; exact hc2)]
      · exact hroot2
  · intro s ray ray_t hd h1 h2
    rw [Sphere.intersect, if_neg (not_lt.mpr hd), if_neg h1, if_neg h2]

/-- A concrete ray missing `sphereEx` sideways (negative discriminant). -/
def rayP : Ray :=
  ⟨⟨⟨0, 0, -2⟩⟩, ⟨0, 1, 0⟩⟩

/-- A concrete interval (5, 10) rejecting both roots of `rayEx` against
`sphereEx`. -/
def intervalC : Interval :=
  ⟨((5 : ℝ) : EReal), ((10 : ℝ) : EReal)⟩

theorem sphereEx_discP : sphereEx.discriminant rayP = -3 := by
  rw [Sphere.discriminant]
  have hqa : sphereEx.qa rayP = 1 := by
    simp [sphereEx, rayP, Sphere.qa, Vector3.length_squared, Vector3.dot]
  have hhb : sphereEx.half_b rayP = 0 := by
    simp [sphereEx, rayP, Sphere.half_b, Vector3.dot, Point3.sub_point_def,
      Vector3.sub_def]
  have hqc : sphereEx.qc rayP = 3 := by
    simp [sphereEx, rayP, Sphere.qc, Vector3.length_squared, Vector3.dot,
      Point3.sub_point_def, Vector3.sub_def]
    norm_num
  rw [hqa, hhb, hqc]
  norm_num

theorem sphereEx_root2 : sphereEx.root2 rayEx = 3 := by
  rw [Sphere.root2, sphereEx_qa, sphereEx_half_b, sphereEx_discriminant,
    Real.sqrt_one]
  norm_num

/-- Witness for C1: a miss with negative discriminant, a through-center hit at
t = d - radius, and a both-roots-rejected absent result. -/
theorem sphere_intersect_root_selection_witness :
    sphereEx.intersect rayP intervalEx = none ∧
      (∃ i, sphereEx.intersect
          ⟨sphereEx.center - (3 : ℝ) * (⟨0, 0, 1⟩ : Vector3),
            (⟨0, 0, 1⟩ : Vector3)⟩ intervalEx = some i ∧
        i.t = 3 - sphereEx.radius) ∧
      sphereEx.intersect rayEx intervalC = none := by
  refine ⟨?_, ?_, ?_⟩
  · exact sphere_intersect_root_selection.1 sphereEx rayP intervalEx
      (by rw [sphereEx_discP]; norm_num)
  · refine (sphere_intersect_root_selection.2.1 sphereEx (⟨0, 0, 1⟩ : Vector3) 3 intervalEx
      (by simp [Vector3.length_squared, Vector3.dot]) (by norm_num)
      (by simp [sphereEx])).1 ?_
    have h1 : (3 : ℝ) - sphereEx.radius = 2 := by
      simp [sphereEx]
      norm_num
    rw [h1]
    exact ⟨EReal.coe_lt_coe_iff.mpr (by norm_num),
      EReal.coe_lt_coe_iff.mpr (by norm_num)⟩
  · refine sphere_intersect_root_selection.2.2 sphereEx rayEx intervalC
      (by rw [sphereEx_discriminant]; norm_num) ?_ ?_
    · rw [sphereEx_root1]
      rintro ⟨h5, -⟩
      exact absurd (EReal.coe_lt_coe_iff.mp h5) (by norm_num)
    · rw [sphereEx_root2]
      rintro ⟨h5, -⟩
      exact absurd (EReal.coe_lt_coe_iff.mp h5) (by norm_num)

/-! ### C2: the scene scan finds the nearest hit, first-inserted on ties -/

/-- Provenance of the scan result: either the incoming best hit survives, or
some shape produced the hit and every earlier shape misses the original
interval or hits strictly farther. -/
theorem intersectList_first (objects : List Shape) (ray : Ray) (lo : EReal)
    (best : Option Intersection) (c bigE : EReal) (hit : Intersection) :
    c ≤ bigE → (∀ i, best = some i → (i.t : EReal) = c) →
      intersectList objects ray lo best c = some hit →
      best = some hit ∨
        ∃ pre o post, objects = pre ++ o :: post ∧
          o.intersect ray ⟨lo, bigE⟩ = some hit ∧
          ∀ sh ∈ pre, ∀ j, sh.intersect ray ⟨lo, bigE⟩ = some j →
            (hit.t : EReal) < (j.t : EReal) := by
  induction objects generalizing best c with
  | nil => exact fun _ _ h => Or.inl h
  | cons o rest ih =>
    intro hcE hbest h
    cases hint : o.intersect ray ⟨lo, c⟩ with
    | some k =>
      rw [intersectList_cons_some hint] at h
      have hk := Shape.some_contains hint
      have hoE : o.intersect ray ⟨lo, bigE⟩ = some k := Shape.widen_some hcE hint
      rcases intersectList_progress rest ray lo (some k) (k.t : EReal) hit h with
        hbk | hstrict
      · have hkh : k = hit := Option.some.inj hbk
        subst hkh
        exact Or.inr ⟨[], o, rest, rfl, hoE, by simp⟩
      · rcases ih (some k) (k.t : EReal) (le_trans (le_of_lt hk.2) hcE)
            (fun i hi => by rw [Option.some.inj hi]) h with
          hbk2 | ⟨pre, o', post, heq, hhit, hpre⟩
        · have hkh : k = hit := Option.some.inj hbk2
          subst hkh
          exact absurd hstrict (lt_irrefl _)
        · refine Or.inr ⟨o :: pre, o', post, by rw [heq, List.cons_append], hhit, ?_⟩
          intro sh hsh j hj
          rcases List.mem_cons.mp hsh with rfl | hmem
          · have hjk : k = j := Option.some.inj (hoE.symm.trans hj)
            exact hjk ▸ hstrict
          · exact hpre sh hmem j hj
    | none =>
      rw [intersectList_cons_none hint] at h
      rcases intersectList_progress rest ray lo best c hit h with hb | hstrict
      · exact Or.inl hb
      · rcases ih best c hcE hbest h with hb | ⟨pre, o', post, heq, hhit, hpre⟩
        · exact Or.inl hb
        · refine Or.inr ⟨o :: pre, o', post, by rw [heq, List.cons_append], hhit, ?_⟩
          intro sh hsh j hj
          rcases List.mem_cons.mp hsh with rfl | hmem
          · exact lt_of_lt_of_le hstrict (Shape.miss_then_some_le hint hj)
          · exact hpre sh hmem j hj

/-- C2: Scene.intersect returns absent only when every shape misses; a
returned hit lies inside the interval, no shape hits strictly closer inside
the interval, and the hit is produced by a shape all of whose predecessors
(in insertion order) miss or hit strictly farther — so an exact tie at the
minimal t yields the first-inserted shape's hit. -/
theorem scene_nearest_hit (sc : Scene) (ray : Ray) (ray_t : Interval) :
    (sc.intersect ray ray_t = none →
        ∀ sh ∈ sc.objects, sh.intersect ray ray_t = none) ∧
      ∀ hit, sc.intersect ray ray_t = some hit →
        ray_t.contains hit.t ∧
          (∀ sh ∈ sc.objects, ∀ j, sh.intersect ray ray_t = some j →
            hit.t ≤ j.t) ∧
          ∃ pre o post, sc.objects = pre ++ o :: post ∧
            o.intersect ray ray_t = some hit ∧
            ∀ sh ∈ pre, ∀ j, sh.intersect ray ray_t = some j → hit.t < j.t := by
  constructor
  · intro h sh hsh
    exact (intersectList_none sc.objects ray ray_t.start none ray_t.stop h).2 sh hsh
  · intro hit h
    have hbounds := intersectList_bounds sc.objects ray ray_t.start none
      ray_t.stop ray_t.stop hit le_rfl (fun i hi => absurd hi (by simp)) h
    refine ⟨hbounds, ?_, ?_⟩
    · intro sh hsh j hj
      have hle := intersectList_minimal sc.objects ray ray_t.start none
        ray_t.stop ray_t.stop hit le_rfl (fun i hi => absurd hi (by simp)) h
        sh hsh j hj
      exact EReal.coe_le_coe_iff.mp hle
    · rcases intersectList_first sc.objects ray ray_t.start none ray_t.stop
          ray_t.stop hit le_rfl (fun i hi => absurd hi (by simp)) h with
        hb | ⟨pre, o, post, heq, hhit, hpre⟩
      · exact absurd hb (by simp)
      · exact ⟨pre, o, post, heq, hhit, fun sh hsh j hj =>
          EReal.coe_lt_coe_iff.mp (hpre sh hsh j hj)⟩

/-- Shape-level concrete evaluation of the example intersection. -/
theorem shapeEx_eval :
    (Shape.Sphere sphereEx).intersect rayEx intervalEx =
      some (sphereEx.mkIntersection rayEx 1) :=
  sphereEx_eval

/-- Concrete evaluation of the one-sphere scene. -/
theorem sceneEx_eval :
    Scene.intersect ⟨[Shape.Sphere sphereEx]⟩ rayEx intervalEx =
      some (sphereEx.mkIntersection rayEx 1) := by
  rw [Scene.intersect, show intervalEx.start = ((0 : ℝ) : EReal) from rfl,
    show intervalEx.stop = ((10 : ℝ) : EReal) from rfl,
    intersectList_cons_some shapeEx_eval]
  rfl

/-- Witness for C2: the empty scene misses, and the one-sphere scene returns
its sphere's hit with all the stated properties. -/
theorem scene_nearest_hit_witness :
    (∀ sh ∈ (Scene.mk []).objects, sh.intersect rayEx intervalEx = none) ∧
      (intervalEx.contains (sphereEx.mkIntersection rayEx 1).t ∧
        (∀ sh ∈ (Scene.mk [Shape.Sphere sphereEx]).objects, ∀ j,
          sh.intersect rayEx intervalEx = some j →
            (sphereEx.mkIntersection rayEx 1).t ≤ j.t) ∧
        ∃ pre o post,
          (Scene.mk [Shape.Sphere sphereEx]).objects = pre ++ o :: post ∧
          o.intersect rayEx intervalEx = some (sphereEx.mkIntersection rayEx 1) ∧
          ∀ sh ∈ pre, ∀ j, sh.intersect rayEx intervalEx = some j →
            (sphereEx.mkIntersection rayEx 1).t < j.t) :=
  ⟨(scene_nearest_hit ⟨[]⟩ rayEx intervalEx).1 rfl,
    (scene_nearest_hit ⟨[Shape.Sphere sphereEx]⟩ rayEx intervalEx).2 _ sceneEx_eval⟩

/-! ### C3: the recursive radiance estimator -/

/-- C3: ray_color returns black at depth zero; on a miss over (0.001, inf) it
returns the sky gradient (1-a) white + a (0.5, 0.7, 1.0) with
a = 0.5 (normalized direction y + 1); on a hit it returns black when the
material absorbs and attenuation * ray_color(scattered, depth - 1) when it
scatters. -/
theorem ray_color_spec (scene : Scene) (ray : Ray) (draws : ℕ → Vector3) :
    ray_color scene ray 0 draws = Color.black ∧
      ∀ depth : ℕ,
        (scene.intersect ray ⟨((0.001 : ℝ) : EReal), ⊤⟩ = none →
          ray_color scene ray (depth + 1) draws =
            (1 - 0.5 * (ray.direction.normalize.y + 1)) * Color.white +
              (0.5 * (ray.direction.normalize.y + 1)) * Color.mk 0.5 0.7 1) ∧
        ∀ isect, scene.intersect ray ⟨((0.001 : ℝ) : EReal), ⊤⟩ = some isect →
          (isect.material.interact ray isect (draws 0) = none →
            ray_color scene ray (depth + 1) draws = Color.black) ∧
          ∀ iact, isect.material.interact ray isect (draws 0) = some iact →
            ray_color scene ray (depth + 1) draws =
              iact.attenuation *
                ray_color scene iact.scattered_ray depth (fun n => draws (n + 1)) := by
  refine ⟨rfl, ?_⟩
  intro depth
  constructor
  · intro h
    conv_lhs => rw [ray_color]
    rw [h]
  · intro isect hisect
    have hred : ray_color scene ray (depth + 1) draws =
        match isect.material.interact ray isect (draws 0) with
        | some iact =>
          iact.attenuation *
            ray_color scene iact.scattered_ray depth (fun n => draws (n + 1))
        | none => Color.black := by
      conv_lhs => rw [ray_color]
      rw [hisect]
    constructor
    · intro habs
      rw [hred, habs]
    · intro iact hiact
      rw [hred, hiact]

/-- A constant draw stream for the witness. -/
def drawsEx : ℕ → Vector3 :=
  fun _ => ⟨0, 0, 0⟩

/-- Witness for C3: the empty scene misses, giving the sky gradient at depth
one. -/
theorem ray_color_spec_witness :
    ray_color ⟨[]⟩ rayEx 1 drawsEx =
      (1 - 0.5 * (rayEx.direction.normalize.y + 1)) * Color.white +
        (0.5 * (rayEx.direction.normalize.y + 1)) * Color.mk 0.5 0.7 1 :=
  ((ray_color_spec ⟨[]⟩ rayEx drawsEx).2 0).1 rfl

end Eden
